import Mathlib

/-!
Verification development for a repository of five standalone numerical
scripts (Gaussian beam fitter, HHI calculator, Macaulay duration,
space-charge beam expansion, relativistic electron kinematics).

Each Python function is shallowly embedded here: float arithmetic is
modelled by exact arithmetic (`ℚ` where the code uses only field
operations, `ℝ` where it uses `sqrt`, `pi` or real exponentiation),
and the fallible Macaulay-duration computation returns `Except`.
-/

/-! ## Herfindahl-Hirschman Index (`calculate_hhi` in the unnamed source file)

The code: empty input returns 0.0; otherwise it sums the values, returns
0.0 when the total is 0, and otherwise sums the squares of the
percentage shares `(s / total) * 100`. -/

def calculate_hhi (market_shares : List ℚ) : ℚ :=
  if market_shares = [] then 0
  else
    let total := market_shares.sum
    if total = 0 then 0
    else (market_shares.map fun s => (s / total * 100) ^ 2).sum

/-- On a list of nonnegative rationals, the sum of squares is at most the
square of the sum. -/
lemma sum_sq_le_sq_sum (l : List ℚ) (h : ∀ x ∈ l, 0 ≤ x) :
    (l.map fun x => x ^ 2).sum ≤ l.sum ^ 2 := by
  induction l with
  | nil => simp
  | cons a t ih =>
    simp only [List.map_cons, List.sum_cons]
    have ha : 0 ≤ a := h a (by simp)
    have ht : ∀ x ∈ t, 0 ≤ x := fun x hx => h x (by simp [hx])
    have hts : 0 ≤ t.sum := List.sum_nonneg ht
    nlinarith [ih ht]

/-- Cauchy-Schwarz for lists: the square of the sum is at most the length
times the sum of squares. -/
lemma sq_sum_le_card_mul (l : List ℚ) :
    l.sum ^ 2 ≤ (l.length : ℚ) * (l.map fun x => x ^ 2).sum := by
  induction l with
  | nil => simp
  | cons a t ih =>
    rcases eq_or_ne t [] with rfl | hne
    · simp
    simp only [List.map_cons, List.sum_cons, List.length_cons]
    push_cast
    have hn1 : (1 : ℚ) ≤ (t.length : ℚ) :=
      Nat.one_le_cast.mpr (List.length_pos.mpr hne)
    have h2 : (0 : ℚ) ≤ ((t.length : ℚ) + 1) *
        ((t.length : ℚ) * (t.map fun x => x ^ 2).sum - t.sum ^ 2) :=
      mul_nonneg (by linarith) (sub_nonneg.mpr ih)
    nlinarith [sq_nonneg ((t.length : ℚ) * a - t.sum), h2, ih, hn1]

/-- On the non-degenerate path, `calculate_hhi` equals
`10000 / total² · Σ sᵢ²`. -/
lemma hhi_formula (l : List ℚ) (hne : l ≠ []) (h0 : l.sum ≠ 0) :
    calculate_hhi l = 10000 / l.sum ^ 2 * (l.map fun x => x ^ 2).sum := by
  rw [calculate_hhi, if_neg hne]
  show (if l.sum = 0 then 0 else (l.map fun s => (s / l.sum * 100) ^ 2).sum) = _
  rw [if_neg h0]
  have hmap : l.map (fun s => (s / l.sum * 100) ^ 2)
      = l.map (fun s => 10000 / l.sum ^ 2 * s ^ 2) := by
    refine List.map_congr_left fun a _ => ?_
    field_simp
    ring
  rw [hmap, List.sum_map_mul_left]

/-- C10: for every sequence of rational inputs, including negative values,
`calculate_hhi` returns a non-negative value: each branch is either the
guarded `0` or a sum of squared percentage shares. -/
theorem hhi_nonneg (l : List ℚ) : 0 ≤ calculate_hhi l := by
  rw [calculate_hhi]
  split
  · exact le_refl 0
  show 0 ≤ if l.sum = 0 then 0 else (l.map fun s => (s / l.sum * 100) ^ 2).sum
  split
  · exact le_refl 0
  exact List.sum_nonneg fun x hx => by
    obtain ⟨s, _, rfl⟩ := List.mem_map.mp hx
    positivity

/-- C3: for a non-empty list of strictly positive market sizes of length
n, `calculate_hhi` lies in `[10000/n, 10000]`; the minimum `10000/n` is
attained when all values are equal, and the maximum `10000` when exactly
one value is present (the only way a strictly positive list has exactly
one positive entry). -/
theorem hhi_bounds (l : List ℚ) (hne : l ≠ []) (hpos : ∀ x ∈ l, 0 < x) :
    (10000 / (l.length : ℚ) ≤ calculate_hhi l ∧ calculate_hhi l ≤ 10000) ∧
    ((∀ x ∈ l, ∀ y ∈ l, x = y) → calculate_hhi l = 10000 / (l.length : ℚ)) ∧
    (l.length = 1 → calculate_hhi l = 10000) := by
  have hT : 0 < l.sum := List.sum_pos l hpos hne
  have hF := hhi_formula l hne hT.ne'
  have hT2 : (0 : ℚ) < l.sum ^ 2 := by positivity
  have hn : (0 : ℚ) < (l.length : ℚ) :=
    Nat.cast_pos.mpr (List.length_pos.mpr hne)
  refine ⟨⟨?_, ?_⟩, ?_, ?_⟩
  · have hlow := sq_sum_le_card_mul l
    rw [hF, div_mul_eq_mul_div, div_le_div_iff₀ hn hT2]
    nlinarith [hlow]
  · have hup := sum_sq_le_sq_sum l fun x hx => (hpos x hx).le
    rw [hF, div_mul_eq_mul_div, div_le_iff₀ hT2]
    nlinarith [hup]
  · intro hall
    obtain ⟨a, ha⟩ := List.exists_mem_of_ne_nil l hne
    have hrep : l = List.replicate l.length a :=
      List.eq_replicate_iff.mpr ⟨rfl, fun b hb => hall b hb a ha⟩
    have ha0 : a ≠ 0 := (hpos a ha).ne'
    have hsum : l.sum = (l.length : ℚ) * a := by
      conv_lhs => rw [hrep]
      rw [List.sum_replicate, nsmul_eq_mul]
    have hQ : (l.map fun x => x ^ 2).sum = (l.length : ℚ) * a ^ 2 := by
      conv_lhs => rw [hrep]
      rw [List.map_replicate, List.sum_replicate, nsmul_eq_mul]
    rw [hF, hsum, hQ]
    field_simp
    ring
  · intro h1
    obtain ⟨x, rfl⟩ := List.length_eq_one.mp h1
    have hx0 : x ≠ 0 := (hpos x (by simp)).ne'
    rw [hF]
    simp only [List.map_cons, List.map_nil, List.sum_cons, List.sum_nil]
    field_simp

/-- Witness for C3 at the concrete input `[1, 2]`. -/
theorem hhi_bounds_witness :
    ([(1 : ℚ), 2] ≠ [] ∧ ∀ x ∈ [(1 : ℚ), 2], 0 < x) ∧
    10000 / (([(1 : ℚ), 2].length : ℕ) : ℚ) ≤ calculate_hhi [1, 2] ∧
    calculate_hhi [1, 2] ≤ 10000 :=
  ⟨⟨by simp, by norm_num⟩, (hhi_bounds [1, 2] (by simp) (by norm_num)).1⟩

/-- C5: `calculate_hhi` returns exactly 0 on the empty list, on `[0,0,0]`,
and more generally on every input whose sum is exactly zero; every other
case with a non-zero total is computed by the plain
sum-of-squared-percentage-shares formula, so the empty and zero-total
inputs are the only specially handled cases (and the embedding is a
total function, so no input raises an exception). -/
theorem hhi_special_cases (l : List ℚ) :
    calculate_hhi [] = 0 ∧ calculate_hhi [0, 0, 0] = 0 ∧
    (l.sum = 0 → calculate_hhi l = 0) ∧
    (l ≠ [] → l.sum ≠ 0 →
      calculate_hhi l = (l.map fun s => (s / l.sum * 100) ^ 2).sum) := by
  refine ⟨by simp [calculate_hhi], by simp [calculate_hhi], fun h0 => ?_,
    fun hne h0 => ?_⟩
  · rw [calculate_hhi]
    split
    · rfl
    show (if l.sum = 0 then 0 else (l.map fun s => (s / l.sum * 100) ^ 2).sum) = 0
    rw [if_pos h0]
  · rw [calculate_hhi, if_neg hne]
    show (if l.sum = 0 then 0 else (l.map fun s => (s / l.sum * 100) ^ 2).sum) = _
    rw [if_neg h0]

/-- Witness for C5: the zero-total case at the concrete input `[1, -1]`
(non-trivial cancellation, not all entries zero) and the formula case at
the concrete input `[1, 1]`. -/
theorem hhi_special_cases_witness :
    calculate_hhi [(1 : ℚ), -1] = 0 ∧
    calculate_hhi [1, 1] =
      (([(1 : ℚ), 1]).map fun s => (s / ([(1 : ℚ), 1]).sum * 100) ^ 2).sum :=
  ⟨(hhi_special_cases [(1 : ℚ), -1]).2.2.1 (by norm_num),
    (hhi_special_cases [1, 1]).2.2.2 (by simp) (by norm_num)⟩

/-! ## Macaulay duration (`macaulay_duration` in `MacD.py`)

The code raises `ValueError` on a length mismatch (embedded as
`Except.error` with the exact message), computes the present values
`cf / (1 + ytm) ** t` (real exponentiation, embedded as `Real.rpow`),
returns `0.0` when the total present value is zero, and otherwise the
weighted sum of times divided by the total present value. -/

noncomputable def present_values (cash_flows times : List ℝ) (ytm : ℝ) : List ℝ :=
  (cash_flows.zip times).map fun p => p.1 / (1 + ytm) ^ p.2

noncomputable def macaulay_duration (cash_flows times : List ℝ) (ytm : ℝ) :
    Except String ℝ :=
  if cash_flows.length ≠ times.length then
    Except.error "The \x27cash_flows\x27 and \x27times\x27 arrays must have the same length."
  else
    let pv := present_values cash_flows times ytm
    let total_present_value := pv.sum
    if total_present_value = 0 then Except.ok 0
    else Except.ok (((times.zip pv).map fun p => p.1 * p.2).sum / total_present_value)

/-- Scaling every cash flow by `a` scales every present value by `a`. -/
lemma present_values_smul (cash_flows times : List ℝ) (ytm a : ℝ) :
    present_values (cash_flows.map fun c => a * c) times ytm
      = (present_values cash_flows times ytm).map fun v => a * v := by
  rw [present_values, present_values, List.zip_map_left, List.map_map, List.map_map]
  refine List.map_congr_left fun p _ => ?_
  simp [mul_div_assoc]

/-- Unfolded form of `macaulay_duration` (zeta-reduces the `let`s). -/
lemma macaulay_duration_eq (cash_flows times : List ℝ) (ytm : ℝ) :
    macaulay_duration cash_flows times ytm =
      if cash_flows.length ≠ times.length then
        Except.error "The \x27cash_flows\x27 and \x27times\x27 arrays must have the same length."
      else if (present_values cash_flows times ytm).sum = 0 then Except.ok 0
      else Except.ok
        (((times.zip (present_values cash_flows times ytm)).map fun p => p.1 * p.2).sum
          / (present_values cash_flows times ytm).sum) := rfl

/-- C6: `macaulay_duration` fails with exactly the message
"The 'cash_flows' and 'times' arrays must have the same length." if and
only if the two lists have unequal lengths, and in that case no duration
value is returned. -/
theorem macd_length_mismatch (cash_flows times : List ℝ) (ytm : ℝ) :
    (macaulay_duration cash_flows times ytm =
        Except.error "The \x27cash_flows\x27 and \x27times\x27 arrays must have the same length."
      ↔ cash_flows.length ≠ times.length) ∧
    (cash_flows.length ≠ times.length →
      ∀ d : ℝ, macaulay_duration cash_flows times ytm ≠ Except.ok d) := by
  rw [macaulay_duration_eq]
  by_cases h : cash_flows.length ≠ times.length
  · rw [if_pos h]
    exact ⟨⟨fun _ => h, fun _ => rfl⟩, fun _ d hd => Except.noConfusion hd⟩
  · rw [if_neg h]
    refine ⟨⟨fun he => ?_, fun hne => absurd hne h⟩, fun hne => absurd hne h⟩
    split at he <;> exact Except.noConfusion he

/-- Witness for C6 at `cash_flows = [1,1,1]`, `times = [1,1]`, `ytm = 0`. -/
theorem macd_length_mismatch_witness :
    macaulay_duration [1, 1, 1] [1, 1] 0 =
      Except.error "The \x27cash_flows\x27 and \x27times\x27 arrays must have the same length." :=
  (macd_length_mismatch [1, 1, 1] [1, 1] 0).1.mpr (by simp)

/-- C4: scaling all cash flows by a positive constant `a` leaves the
computed Macaulay duration unchanged. -/
theorem macd_scale_invariant (cash_flows times : List ℝ) (ytm a : ℝ)
    (hlen : cash_flows.length = times.length) (ha : 0 < a) :
    macaulay_duration (cash_flows.map fun c => a * c) times ytm
      = macaulay_duration cash_flows times ytm := by
  rw [macaulay_duration_eq, macaulay_duration_eq, present_values_smul]
  have hlen2 : (cash_flows.map fun c => a * c).length = times.length := by
    simpa using hlen
  rw [if_neg (not_not_intro hlen2), if_neg (not_not_intro hlen)]
  have hsum : ((present_values cash_flows times ytm).map fun v => a * v).sum
      = a * (present_values cash_flows times ytm).sum := by
    simpa using List.sum_map_mul_left (present_values cash_flows times ytm) id a
  rw [hsum]
  by_cases h0 : (present_values cash_flows times ytm).sum = 0
  · rw [if_pos h0, if_pos (by rw [h0, mul_zero])]
  · rw [if_neg h0, if_neg (mul_ne_zero ha.ne' h0)]
    rw [List.zip_map_right, List.map_map]
    have hw : ((times.zip (present_values cash_flows times ytm)).map
          ((fun p : ℝ × ℝ => p.1 * p.2) ∘ Prod.map id fun v => a * v)).sum
        = a * ((times.zip (present_values cash_flows times ytm)).map
            fun p : ℝ × ℝ => p.1 * p.2).sum := by
      rw [← List.sum_map_mul_left]
      refine congrArg List.sum (List.map_congr_left fun p _ => ?_)
      simp [Prod.map]
      ring
    rw [hw, mul_div_mul_left _ _ ha.ne']

/-- Witness for C4 at `cash_flows = [1]`, `times = [1]`, `ytm = 0`, `a = 2`. -/
theorem macd_scale_invariant_witness :
    (0 : ℝ) < 2 ∧
    macaulay_duration ([(1 : ℝ)].map fun c => 2 * c) [1] 0
      = macaulay_duration [1] [1] 0 :=
  ⟨by norm_num, macd_scale_invariant [1] [1] 0 2 (by simp) (by norm_num)⟩

/-- C9: with equal-length non-empty inputs, strictly positive cash flows,
non-negative times and `1 + ytm > 0`, the Macaulay duration is returned
(`Except.ok`) and lies between the minimum and the maximum of the times,
inclusive. -/
theorem macd_duration_bounds (cash_flows times : List ℝ) (ytm lo hi : ℝ)
    (hlen : cash_flows.length = times.length) (hne : cash_flows ≠ [])
    (hcf : ∀ c ∈ cash_flows, 0 < c) (ht : ∀ t ∈ times, 0 ≤ t)
    (hy : 0 < 1 + ytm)
    (hlo : times.minimum = (lo : WithTop ℝ)) (hhi : times.maximum = (hi : WithBot ℝ)) :
    ∃ d : ℝ, macaulay_duration cash_flows times ytm = Except.ok d ∧
      lo ≤ d ∧ d ≤ hi := by
  obtain ⟨-, hlo'⟩ := List.minimum_eq_coe_iff.mp hlo
  obtain ⟨-, hhi'⟩ := List.maximum_eq_coe_iff.mp hhi
  set pv := present_values cash_flows times ytm with hpv
  have hpvpos : ∀ v ∈ pv, 0 < v := by
    intro v hv
    obtain ⟨p, hpmem, rfl⟩ := List.mem_map.mp hv
    exact div_pos (hcf p.1 (List.of_mem_zip hpmem).1) (Real.rpow_pos_of_pos hy p.2)
  have hpvlen : pv.length = times.length := by
    rw [hpv, present_values, List.length_map, List.length_zip, hlen, min_self]
  have hpvne : pv ≠ [] := by
    intro h
    exact hne (List.length_eq_zero.mp (by rw [hlen, ← hpvlen, h, List.length_nil]))
  have hS : 0 < pv.sum := List.sum_pos pv hpvpos hpvne
  rw [macaulay_duration_eq, if_neg (not_not_intro hlen), ← hpv, if_neg hS.ne']
  refine ⟨_, rfl, ?_, ?_⟩
  · rw [le_div_iff₀ hS]
    have hsnd : (times.zip pv).map Prod.snd = pv :=
      List.map_snd_zip times pv (le_of_eq hpvlen)
    calc lo * pv.sum = ((times.zip pv).map fun p => lo * p.2).sum := by
          rw [List.sum_map_mul_left, hsnd]
      _ ≤ ((times.zip pv).map fun p => p.1 * p.2).sum := by
          refine List.sum_le_sum fun p hp => ?_
          exact mul_le_mul_of_nonneg_right (hlo' p.1 (List.of_mem_zip hp).1)
            (hpvpos p.2 (List.of_mem_zip hp).2).le
  · rw [div_le_iff₀ hS]
    have hsnd : (times.zip pv).map Prod.snd = pv :=
      List.map_snd_zip times pv (le_of_eq hpvlen)
    calc ((times.zip pv).map fun p => p.1 * p.2).sum
        ≤ ((times.zip pv).map fun p => hi * p.2).sum := by
          refine List.sum_le_sum fun p hp => ?_
          exact mul_le_mul_of_nonneg_right (hhi' p.1 (List.of_mem_zip hp).1)
            (hpvpos p.2 (List.of_mem_zip hp).2).le
      _ = hi * pv.sum := by rw [List.sum_map_mul_left, hsnd]

/-- Witness for C9 at `cash_flows = [1,1]`, `times = [1,2]`, `ytm = 0`,
with minimum 1 and maximum 2. -/
theorem macd_duration_bounds_witness :
    ∃ d : ℝ, macaulay_duration [1, 1] [1, 2] 0 = Except.ok d ∧
      1 ≤ d ∧ d ≤ 2 :=
  macd_duration_bounds [1, 1] [1, 2] 0 1 2 (by simp) (by simp)
    (by norm_num) (by norm_num) (by norm_num)
    (List.minimum_eq_coe_iff.mpr ⟨by simp, by norm_num⟩)
    (List.maximum_eq_coe_iff.mpr ⟨by simp, by norm_num⟩)

/-! ## Space-charge beam expansion (`SpaceCharge_Beam_Expansion.py`)

Constants and the transverse-expansion model, embedded over `ℝ`.  The
example driver passes its arguments in the order written in the source:
`simulate_transverse_expansion(CHARGE, R_INITIAL, GAMMA, z_points)`,
although the function signature is
`(initial_radius_m, initial_charge_c, gamma, z_points_m)`. -/

def E_CHARGE : ℝ := 1.602176634e-19
def E_MASS_KG : ℝ := 9.10938356e-31
def EPSILON_0 : ℝ := 8.854187817e-12
def C_LIGHT : ℝ := 299792458.0

noncomputable def B (gamma : ℝ) : ℝ :=
  (2.0 * E_CHARGE) / (4.0 * Real.pi * EPSILON_0 * E_MASS_KG * (C_LIGHT * gamma) ^ 3)

noncomputable def k_g (initial_radius_m initial_charge_c gamma : ℝ) : ℝ :=
  B gamma * initial_charge_c / initial_radius_m ^ 2

noncomputable def radius_at (initial_radius_m initial_charge_c gamma z : ℝ) : ℝ :=
  initial_radius_m *
    Real.sqrt (1.0 + (k_g initial_radius_m initial_charge_c gamma * z) ^ 2)

noncomputable def simulate_transverse_expansion
    (initial_radius_m initial_charge_c gamma : ℝ) (z_points_m : List ℝ) : List ℝ :=
  z_points_m.map (radius_at initial_radius_m initial_charge_c gamma)

/-- `np.linspace(a, b, n)`: `n` evenly spaced points from `a` to `b`. -/
noncomputable def linspace (a b : ℝ) (n : ℕ) : List ℝ :=
  (List.range n).map fun i => a + (b - a) * (i : ℝ) / ((n : ℝ) - 1)

/-- Example-driver constants of Part 2 of the script. -/
def CHARGE : ℝ := 100e-12
def R_INITIAL : ℝ := 1e-3
def GAMMA : ℝ := 20.0

noncomputable def z_points : List ℝ := linspace 0 1.0 11

/-- The radii the example driver actually computes and tabulates:
the source calls `simulate_transverse_expansion(CHARGE, R_INITIAL,
GAMMA, z_points)`, so `CHARGE` lands in the `initial_radius_m` slot and
`R_INITIAL` in the `initial_charge_c` slot. -/
noncomputable def r_expansion : List ℝ :=
  simulate_transverse_expansion CHARGE R_INITIAL GAMMA z_points

/-- At drift distance 0 the model returns the initial radius exactly. -/
lemma radius_at_zero (r q g : ℝ) : radius_at r q g 0 = r := by
  have h10 : (1.0 : ℝ) = 1 := by norm_num
  simp [radius_at, h10]

/-- First entry of `linspace 0 1 11` is 0. -/
lemma z_points_head : z_points.head? = some 0 := by
  rw [z_points, linspace, show List.range 11 = [0, 1, 2, 3, 4, 5, 6, 7, 8, 9, 10] by decide]
  simp

/-- C1 (code bug): the example driver's first tabulated radius is
`CHARGE = 1e-10` m (printed as `0.000` mm), not the `R_INITIAL = 1e-3` m
that the claimed call `simulate_transverse_expansion` with initial
radius 1 mm and charge 100 pC produces, because the driver passes the
two leading arguments in swapped positions. -/
theorem driver_table_differs_from_claimed_model :
    r_expansion.head? = some CHARGE ∧
    (simulate_transverse_expansion R_INITIAL CHARGE GAMMA z_points).head?
      = some R_INITIAL ∧
    CHARGE ≠ R_INITIAL := by
  refine ⟨?_, ?_, by rw [CHARGE, R_INITIAL]; norm_num⟩
  · rw [r_expansion, simulate_transverse_expansion, List.head?_map, z_points_head]
    simp [radius_at_zero]
  · rw [simulate_transverse_expansion, List.head?_map, z_points_head]
    simp [radius_at_zero]

/-- The growth factor at `gamma = 1` is strictly positive. -/
lemma B_one_pos : 0 < B 1 := by
  rw [B, E_CHARGE, EPSILON_0, E_MASS_KG, C_LIGHT]
  positivity

/-- C7 fails as stated: `[-1, 0]` is strictly increasing, yet the radii
returned by `simulate_transverse_expansion 1 1 1 [-1, 0]` strictly
decrease, because the drift distance enters squared; likewise for a
negative initial radius `-1` the radii along `[0, 1]` strictly decrease. -/
theorem expansion_monotone_counterexample :
    (List.Chain' (· < ·) [(-1 : ℝ), 0] ∧
      ¬ List.Chain' (· ≤ ·) (simulate_transverse_expansion 1 1 1 [(-1 : ℝ), 0])) ∧
    (List.Chain' (· < ·) [(0 : ℝ), 1] ∧
      ¬ List.Chain' (· ≤ ·) (simulate_transverse_expansion (-1) 1 1 [(0 : ℝ), 1])) := by
  have hgt : ∀ z : ℝ, z ^ 2 = 1 → (1 : ℝ) < Real.sqrt (1.0 + (B 1 * z) ^ 2) := by
    intro z hz
    rw [Real.lt_sqrt (by norm_num), mul_pow, hz, mul_one]
    nlinarith [B_one_pos]
  have hk1 : k_g 1 1 1 = B 1 := by rw [k_g]; ring
  have hkm1 : k_g (-1) 1 1 = B 1 := by rw [k_g]; ring
  refine ⟨⟨by simp, ?_⟩, ⟨by simp, ?_⟩⟩
  · rw [simulate_transverse_expansion]
    simp only [List.map_cons, List.map_nil, List.chain'_cons, List.chain'_singleton,
      and_true, not_le, radius_at_zero]
    rw [radius_at, hk1]
    nlinarith [hgt (-1) (by norm_num)]
  · rw [simulate_transverse_expansion]
    simp only [List.map_cons, List.map_nil, List.chain'_cons, List.chain'_singleton,
      and_true, not_le, radius_at_zero]
    rw [radius_at, hkm1]
    nlinarith [hgt 1 (by norm_num)]

/-- C7 amended: for a strictly positive initial radius and any charge and
gamma, the radii are non-decreasing along any strictly increasing list of
non-negative drift distances. -/
theorem expansion_monotone_nonneg (r0 q gamma : ℝ) (hr : 0 < r0) (zs : List ℝ)
    (hsorted : List.Chain' (· < ·) zs) (hz : ∀ z ∈ zs, 0 ≤ z) :
    List.Chain' (· ≤ ·) (simulate_transverse_expansion r0 q gamma zs) := by
  rw [simulate_transverse_expansion, List.chain'_map]
  refine List.Pairwise.chain'
    (List.Pairwise.imp_of_mem ?_ (List.chain'_iff_pairwise.mp hsorted))
  intro a b ha hb hab
  rw [radius_at, radius_at]
  refine mul_le_mul_of_nonneg_left (Real.sqrt_le_sqrt ?_) hr.le
  have h1 : 0 ≤ k_g r0 q gamma ^ 2 * ((b - a) * (b + a)) :=
    mul_nonneg (sq_nonneg _)
      (mul_nonneg (by linarith) (by linarith [hz a ha, hz b hb]))
  nlinarith [h1]

/-- Witness for the amended C7 at `r0 = 1`, `q = 1`, `gamma = 1`,
`zs = [0, 1]`. -/
theorem expansion_monotone_nonneg_witness :
    (0 : ℝ) < 1 ∧
    List.Chain' (· ≤ ·) (simulate_transverse_expansion 1 1 1 [(0 : ℝ), 1]) :=
  ⟨by norm_num,
    expansion_monotone_nonneg 1 1 1 (by norm_num) [0, 1] (by simp) (by norm_num)⟩

/-! ## Relativistic electron kinematics
(second half of `SpaceCharge_Beam_Expansion.py`)

`calculate_relativistic_properties` maps a total energy in GeV to the
Lorentz factor, the velocity fraction beta (guarded to `0` when
`gamma <= 1`), and the momentum in MeV/c. -/

def JOULES_PER_EV : ℝ := 1.602176634e-19

noncomputable def E_REST_J : ℝ := E_MASS_KG * C_LIGHT ^ 2

noncomputable def E_REST_MEV : ℝ := (E_REST_J / JOULES_PER_EV) / 1e6

structure RelProperties where
  gamma : ℝ
  beta : ℝ
  momentum_mevc : ℝ

noncomputable def calculate_relativistic_properties (energy_gev : ℝ) : RelProperties :=
  let energy_mev := energy_gev * 1000.0
  let gamma := energy_mev / E_REST_MEV
  let beta := if gamma ≤ 1 then 0 else Real.sqrt (1 - 1 / gamma ^ 2)
  { gamma := gamma, beta := beta, momentum_mevc := gamma * E_REST_MEV * beta }

lemma rel_gamma_eq (e : ℝ) :
    (calculate_relativistic_properties e).gamma = e * 1000.0 / E_REST_MEV := rfl

lemma rel_beta_eq (e : ℝ) :
    (calculate_relativistic_properties e).beta =
      if (calculate_relativistic_properties e).gamma ≤ 1 then 0
      else Real.sqrt (1 - 1 / (calculate_relativistic_properties e).gamma ^ 2) := rfl

lemma E_REST_MEV_pos : 0 < E_REST_MEV := by
  rw [E_REST_MEV, E_REST_J, E_MASS_KG, C_LIGHT, JOULES_PER_EV]
  positivity

/-- For `gamma > 1` the square-root operand `1 - 1/gamma²` is in `[0, 1)`
and beta takes the unguarded branch. -/
lemma rel_beta_of_one_lt (e : ℝ)
    (h : 1 < (calculate_relativistic_properties e).gamma) :
    (calculate_relativistic_properties e).beta =
      Real.sqrt (1 - 1 / (calculate_relativistic_properties e).gamma ^ 2) := by
  rw [rel_beta_eq, if_neg (not_le.mpr h)]

/-- C8: whenever the computed Lorentz factor is at most 1, beta is set to
exactly 0 rather than evaluating the square root; and on the other
branch the square-root operand `1 - 1/gamma²` is non-negative, so the
operand is never negative on any input. -/
theorem rel_beta_edge_case (e : ℝ) :
    ((calculate_relativistic_properties e).gamma ≤ 1 →
      (calculate_relativistic_properties e).beta = 0) ∧
    (1 < (calculate_relativistic_properties e).gamma →
      0 ≤ 1 - 1 / (calculate_relativistic_properties e).gamma ^ 2) := by
  constructor
  · intro h
    rw [rel_beta_eq, if_pos h]
  · intro h
    have hg : (0 : ℝ) < (calculate_relativistic_properties e).gamma := by linarith
    have h2 : (1 : ℝ) ≤ (calculate_relativistic_properties e).gamma ^ 2 := by nlinarith
    have : 1 / (calculate_relativistic_properties e).gamma ^ 2 ≤ 1 := by
      rw [div_le_one (by positivity)]
      norm_num [h2]
    linarith

/-- Witness for C8 at `energy_gev = 0` (gamma evaluates to 0). -/
theorem rel_beta_edge_case_witness :
    (calculate_relativistic_properties 0).beta = 0 :=
  (rel_beta_edge_case 0).1 (by rw [rel_gamma_eq]; norm_num)

/-- C2: whenever the Lorentz factor exceeds 1, beta lies in `[0, 1)`,
and beta is strictly increasing in the energy (while staying below 1,
hence never reaching 1). -/
theorem rel_beta_bounds_mono (e1 e2 : ℝ)
    (h1 : 1 < (calculate_relativistic_properties e1).gamma) :
    (0 ≤ (calculate_relativistic_properties e1).beta ∧
      (calculate_relativistic_properties e1).beta < 1) ∧
    (1 < (calculate_relativistic_properties e2).gamma → e1 < e2 →
      (calculate_relativistic_properties e1).beta
        < (calculate_relativistic_properties e2).beta) := by
  have harg : ∀ e : ℝ, 1 < (calculate_relativistic_properties e).gamma →
      0 ≤ 1 - 1 / (calculate_relativistic_properties e).gamma ^ 2 :=
    fun e he => (rel_beta_edge_case e).2 he
  refine ⟨⟨?_, ?_⟩, ?_⟩
  · rw [rel_beta_of_one_lt e1 h1]
    exact Real.sqrt_nonneg _
  · rw [rel_beta_of_one_lt e1 h1]
    have hlt : 1 - 1 / (calculate_relativistic_properties e1).gamma ^ 2 < 1 := by
      have hgpos : (0 : ℝ) < (calculate_relativistic_properties e1).gamma := by linarith
      have : 0 < 1 / (calculate_relativistic_properties e1).gamma ^ 2 :=
        div_pos one_pos (pow_pos hgpos 2)
      linarith
    calc Real.sqrt (1 - 1 / (calculate_relativistic_properties e1).gamma ^ 2)
        < Real.sqrt 1 := Real.sqrt_lt_sqrt (harg e1 h1) hlt
      _ = 1 := Real.sqrt_one
  · intro h2 hlt
    rw [rel_beta_of_one_lt e1 h1, rel_beta_of_one_lt e2 h2]
    have hg1pos : (0 : ℝ) < (calculate_relativistic_properties e1).gamma := by linarith
    have hgg : (calculate_relativistic_properties e1).gamma
        < (calculate_relativistic_properties e2).gamma := by
      rw [rel_gamma_eq, rel_gamma_eq]
      exact div_lt_div_of_pos_right (by linarith) E_REST_MEV_pos
    have hsq : (calculate_relativistic_properties e1).gamma ^ 2
        < (calculate_relativistic_properties e2).gamma ^ 2 := by nlinarith
    have hinv : 1 / (calculate_relativistic_properties e2).gamma ^ 2
        < 1 / (calculate_relativistic_properties e1).gamma ^ 2 := by
      have h1sq : (0 : ℝ) < (calculate_relativistic_properties e1).gamma ^ 2 :=
        pow_pos hg1pos 2
      exact one_div_lt_one_div_of_lt h1sq hsq
    exact Real.sqrt_lt_sqrt (harg e1 h1) (by linarith)

/-- Witness for C2 at `energy_gev = 1` and `energy_gev = 2`, where the
Lorentz factor exceeds 1 (1 GeV is well above the electron rest
energy of about 0.511 MeV). -/
theorem rel_beta_bounds_mono_witness :
    0 ≤ (calculate_relativistic_properties 1).beta ∧
    (calculate_relativistic_properties 1).beta < 1 ∧
    (calculate_relativistic_properties 1).beta
      < (calculate_relativistic_properties 2).beta := by
  have hg1 : 1 < (calculate_relativistic_properties 1).gamma := by
    rw [rel_gamma_eq, E_REST_MEV, E_REST_J, E_MASS_KG, C_LIGHT, JOULES_PER_EV]
    norm_num
  have hg2 : 1 < (calculate_relativistic_properties 2).gamma := by
    rw [rel_gamma_eq, E_REST_MEV, E_REST_J, E_MASS_KG, C_LIGHT, JOULES_PER_EV]
    norm_num
  obtain ⟨⟨a, b⟩, c⟩ := rel_beta_bounds_mono 1 2 hg1
  exact ⟨a, b, c hg2 (by norm_num)⟩
